import Mathlib

/-!
Shallow embedding of the `parsero` procedure-orchestration library
(`src/classes/state.ts`, `src/classes/agent.ts`, `src/classes/procedure.ts`).

Conventions of the embedding:
* JavaScript strings that the code manipulates character-wise (the state
  codec's path keys, which are split and joined on the underscore
  character) are modelled as `List Char`; strings used only for identity
  comparison (procedure names, error messages) are modelled as `String`.
* JavaScript objects are insertion-ordered maps with unique keys; they are
  modelled as association lists, and property assignment (`obj[k] = v`)
  is `objSet`, which overwrites in place when the key is present and
  appends otherwise.
* Fallible operations return `Option`/sum results; thrown errors become
  an explicit error value.
-/

namespace Parsero

/-- Model of a JavaScript value stored in the agent state: `null`,
booleans, numbers (integral model), strings, arrays and plain objects.
`undefined` does not occur as a stored value in the flows modelled here. -/
inductive JValue where
  | vnull : JValue
  | vbool (b : Bool) : JValue
  | vnum (n : Int) : JValue
  | vstr (s : List Char) : JValue
  | varr (xs : List JValue) : JValue
  | vobj (fields : List ((List Char) × JValue)) : JValue

/-- Path keys of the flat LangGraph encoding, modelled character-wise. -/
abbrev Key := List Char

/-- Association-list form of a flat JavaScript object produced by
`State.valuesToLanggraph`. -/
abbrev Flat := List (Key × JValue)

/-- JavaScript property assignment `obj[k] = v` on an insertion-ordered
object: overwrite in place when the key is present, append otherwise. -/
def objSet (l : List (Key × JValue)) (k : Key) (v : JValue) : List (Key × JValue) :=
  if l.any (fun p => p.1 == k) then
    l.map (fun p => if p.1 == k then (k, v) else p)
  else
    l ++ [(k, v)]

/-- JavaScript property read `obj[k]`: `none` models `undefined`. -/
def objGet (l : List (Key × JValue)) (k : Key) : Option JValue :=
  (l.find? (fun p => p.1 == k)).map Prod.snd

/-- The path separator used by the codec (`"_"`). -/
def usep : Char := '_'

/-- Embeds the key-joining expression in `State.processObject`:
the new prefix is `prefix ? prefix + "_" + key : key` (an empty string is
falsy in JavaScript). -/
def joinKey (pfx key : Key) : Key :=
  if pfx = [] then key else pfx ++ usep :: key

/-- Embeds the entry loop of `State.processObject` over the entries of a
JavaScript object (`state.ts` lines 139-151): a value that is itself a
plain object is processed recursively under the extended prefix, every
other value is written verbatim at the extended prefix. -/
def processEntries : List (Key × JValue) → Key → Flat → Flat
  | [], _, result => result
  | (key, JValue.vobj f) :: rest, pfx, result =>
      processEntries rest pfx (processEntries f (joinKey pfx key) result)
  | (key, v) :: rest, pfx, result =>
      processEntries rest pfx (objSet result (joinKey pfx key) v)
termination_by l _ _ => sizeOf l
decreasing_by
  all_goals simp_wf
  all_goals omega

/-- Embeds `State.processObject` (`state.ts` lines 125-156): `null` and
arrays are stored verbatim at the prefix, plain objects are walked
entry-by-entry, and primitives are stored verbatim at the prefix. -/
def processObject (v : JValue) (pfx : Key) (result : Flat) : Flat :=
  match v with
  | JValue.vobj fields => processEntries fields pfx result
  | v => objSet result pfx v

/-- Embeds `State.valuesToLanggraph` (`state.ts` lines 169-180): the
input section is flattened under the prefix `"input"`, then the output
section under `"output"`, into one shared result object. -/
def valuesToLanggraph (input output : JValue) : Flat :=
  processObject output ("output".data) (processObject input ("input".data) [])

/-- JavaScript `String.prototype.split` with the single-character
separator `"_"`: `"".split("_") = [""]`, and separators at the ends
produce empty segments. -/
def splitOnU : Key → List Key
  | [] => [[]]
  | c :: rest =>
    if c = usep then
      [] :: splitOnU rest
    else
      match splitOnU rest with
      | [] => [[c]]
      | k :: ks => (c :: k) :: ks

/-- JavaScript `String.prototype.startsWith`, character-wise. -/
def startsWithK : Key → Key → Bool
  | [], _ => true
  | _ :: _, [] => false
  | p :: ps, c :: cs => p == c && startsWithK ps cs

/-- JavaScript truthiness of a stored value (`!current[path[i]]` in
`State.langgraphToValues`); an integral model, so `NaN` does not arise. -/
def truthy : JValue → Bool
  | JValue.vnull => false
  | JValue.vbool b => b
  | JValue.vnum n => n != 0
  | JValue.vstr s => s != []
  | JValue.varr _ => true
  | JValue.vobj _ => true

/-- Embeds the inner reconstruction loop of `State.langgraphToValues`
(`state.ts` lines 197-208): walk the path, creating `{}` at a segment
whose current value is absent or falsy, and descending into the existing
value otherwise; the final segment receives the value.  Descending into a
truthy non-object value happens only under path collisions, whose
behavior the codec leaves undefined (spec 4.1); the embedding drops such
a write. -/
def insertPath : List (Key × JValue) → List Key → JValue → List (Key × JValue)
  | fields, [], _ => fields
  | fields, [last], v => objSet fields last v
  | fields, seg :: rest, v =>
    match objGet fields seg with
    | some c =>
      if truthy c then
        match c with
        | JValue.vobj f => objSet fields seg (JValue.vobj (insertPath f rest v))
        | _ => fields
      else objSet fields seg (JValue.vobj (insertPath [] rest v))
    | none => objSet fields seg (JValue.vobj (insertPath [] rest v))
termination_by _ p _ => p.length

/-- The flat key prefix `"input_"`. -/
def inputPfx : Key := "input_".data

/-- The flat key prefix `"output_"`. -/
def outputPfx : Key := "output_".data

/-- Embeds the entry loop of `State.langgraphToValues` (`state.ts` lines
194-224).  Under the `startsWith` guard the JavaScript
`key.replace("input_", "")` (which replaces the first occurrence only)
is exactly the removal of the six-character prefix, and likewise for
`"output_"`. -/
def langgraphLoop : Flat → List (Key × JValue) → List (Key × JValue) →
    (List (Key × JValue)) × (List (Key × JValue))
  | [], inp, outp => (inp, outp)
  | (key, value) :: rest, inp, outp =>
    if startsWithK inputPfx key then
      langgraphLoop rest (insertPath inp (splitOnU (key.drop inputPfx.length)) value) outp
    else if startsWithK outputPfx key then
      langgraphLoop rest inp (insertPath outp (splitOnU (key.drop outputPfx.length)) value)
    else
      langgraphLoop rest inp outp

/-- Embeds `State.langgraphToValues` (`state.ts` lines 190-227). -/
def langgraphToValues (object : Flat) : (List (Key × JValue)) × (List (Key × JValue)) :=
  langgraphLoop object [] []

/-! Specification-level decomposition of a nested object into
(path, leaf-value) pairs, used to characterize the flatten pass.  These
are proof-layer helpers; the executable embeddings above are the ones
compared against the source. -/

/-- Depth-first list of (path, value) leaves of a field list: a plain
object value contributes its leaves under its extended path, every other
value is a leaf. -/
def flatOf : List (Key × JValue) → List (List Key × JValue)
  | [] => []
  | (k, v) :: rest =>
    match v with
    | JValue.vobj f => (flatOf f).map (fun pv => (k :: pv.1, pv.2)) ++ flatOf rest
    | _ => ([k], v) :: flatOf rest
termination_by l => sizeOf l
decreasing_by
  all_goals simp_wf
  all_goals omega

/-- Underscore-join of a non-empty path. -/
def intercalateK : List Key → Key
  | [] => []
  | [k] => k
  | k :: ks => k ++ usep :: intercalateK ks

/-- Flat entries emitted for a field list under a section prefix. -/
def emitKeys (pfx : Key) (fields : List (Key × JValue)) : Flat :=
  (flatOf fields).map (fun pv => (pfx ++ usep :: intercalateK pv.1, pv.2))

/-- Left fold of `insertPath` over (path, value) pairs. -/
def foldInsert (acc : List (Key × JValue)) (l : List (List Key × JValue)) : List (Key × JValue) :=
  l.foldl (fun a pv => insertPath a pv.1 pv.2) acc

/-- A field name free of the path separator. -/
def keyOkB (k : Key) : Bool := k.all (fun c => !(c == usep))

mutual

/-- Well-formed stored value: nested plain objects are non-empty and
themselves well-formed (arrays are atomic leaves and unconstrained). -/
def wfValue : JValue → Bool
  | JValue.vobj f => !f.isEmpty && wfFieldsList f
  | _ => true
termination_by v => sizeOf v
decreasing_by
  all_goals simp_wf

/-- Well-formed field list: separator-free field names, no repeated
names, and well-formed values. -/
def wfFieldsList : List (Key × JValue) → Bool
  | [] => true
  | (k, v) :: rest =>
      keyOkB k && !(rest.any (fun p => p.1 == k)) && wfValue v && wfFieldsList rest
termination_by l => sizeOf l
decreasing_by
  all_goals simp_wf
  all_goals omega

end

/-! Embedding of the orchestration engine (`agent.ts`).  Procedure bodies
are opaque pure functions over the state values; the tracing wrappers and
verbose logging of `Agent.run` are semantically inert and are not
modelled.  The interpreter loop is given explicit fuel to make it total;
every theorem either fixes a concrete sufficient fuel or quantifies over
it. -/

/-- State values held by the `State` container: the `input` and `output`
sections (`state.ts` lines 36-39, 69-74). -/
structure StateValues (α β : Type) where
  input : α
  output : β
deriving DecidableEq

/-- Model of the `maxIterations` option: a natural number or `Infinity`
(the values the library documents; `agent.ts` line 70). -/
inductive MaxIter where
  | num (n : Nat)
  | infinity
deriving DecidableEq

/-- JavaScript string interpolation of the effective ceiling value. -/
def MaxIter.render : MaxIter → String
  | MaxIter.num n => toString n
  | MaxIter.infinity => "Infinity"

/-- The expression `maxIterations || 100` (`agent.ts` line 185): an
unset option and the falsy value `0` both yield the default `100`. -/
def effectiveCeiling : Option MaxIter → MaxIter
  | none => MaxIter.num 100
  | some (MaxIter.num 0) => MaxIter.num 100
  | some (MaxIter.num (n + 1)) => MaxIter.num (n + 1)
  | some MaxIter.infinity => MaxIter.infinity

/-- The comparison `iteration++ >= ceiling` of `agent.ts` line 185; a
comparison against `Infinity` is never true for a finite counter. -/
def ceilingReached (iteration : Nat) : MaxIter → Bool
  | MaxIter.num c => c ≤ iteration
  | MaxIter.infinity => false

/-- An `ActionProcedure` (`procedure.ts`): a name, an optional declared
next procedure, and a body returning the full new state. -/
structure ActionProc (α β : Type) where
  name : String
  nextProcedure : Option String := none
  run : StateValues α β → StateValues α β

/-- A `CheckProcedure` (`procedure.ts`): a name and a body returning the
name of the next procedure, or `none` for the falsy results
`null`/`undefined`. -/
structure CheckProc (α β : Type) where
  name : String
  run : StateValues α β → Option String

/-- The `Procedure` union (`procedure.ts`), discriminated by `type`. -/
inductive Procedure (α β : Type) where
  | action (a : ActionProc α β)
  | check (c : CheckProc α β)

/-- Name accessor across both procedure variants. -/
def Procedure.name : Procedure α β → String
  | Procedure.action a => a.name
  | Procedure.check c => c.name

/-- The test `p.type === "action"`. -/
def Procedure.isAction : Procedure α β → Bool
  | Procedure.action _ => true
  | Procedure.check _ => false

/-- The test `p.type === "check"`. -/
def Procedure.isCheck : Procedure α β → Bool
  | Procedure.action _ => false
  | Procedure.check _ => true

/-- Declared next procedure, defined across both variants (a check has
none). -/
def Procedure.nextOpt : Procedure α β → Option String
  | Procedure.action a => a.nextProcedure
  | Procedure.check _ => none

/-- JavaScript truthiness of an optional string: `undefined`/`null` and
the empty string are falsy. -/
def optTruthy : Option String → Bool
  | none => false
  | some s => s != ""

/-- The LangGraph `END` constant (`"__end__"`). -/
def ENDmark : String := "__end__"

/-- Errors raised by `Agent.run`, mirroring the classes under
`src/errors`: `StateValidationError`, `ProcedureNameError` (which
carries the duplicated names) and `ProcedureChainError`. -/
inductive AgentError where
  | stateValidation (msg : String)
  | procedureName (msg : String) (names : List String)
  | procedureChain (msg : String)
deriving DecidableEq

/-- Message of `StateValidationError` for a rejected input. -/
def inputInvalidMsg : String := "O input recebido não segue o schema."

/-- Message of `StateValidationError` for a rejected output. -/
def outputInvalidMsg : String := "O output gerado não segue o schema."

/-- Message of `ProcedureNameError` (`agent.ts` line 111). -/
def duplicateNamesMsg : String := "Os nomes dos procedimentos devem ser distintos."

/-- Message of `ProcedureChainError` for an inconsistent chain
(`agent.ts` line 132; the quotation marks around the two type names in
the source string are elided). -/
def chainInconsistentMsg : String :=
  "Quando houver um procedimento do tipo check, todos os procedimentos do tipo action devem declarar o próximo procedimento."

/-- Message of `ProcedureChainError` for the iteration limit
(`agent.ts` line 187): interpolates `maxIterations || 100`. -/
def iterLimitMsg (m : Option MaxIter) : String :=
  "O agente atingiu o limite máximo de " ++ (effectiveCeiling m).render ++
    " iterações. Possível loop detectado no grafo."

/-- Constructor arguments of an `Agent`: the options and collaborators
that the modelled control flow depends on.  The schema validator is
abstracted as partial parse functions, exactly the success/failure
surface `safeParse` exposes. -/
structure AgentProps (ι α β ω : Type) where
  maxIterations : Option MaxIter := none
  procedures : List (Procedure α β)
  parseInput : ι → Option α
  parseOutput : β → Option ω

/-- Embeds `Agent.validateProcedureNames` (`agent.ts` lines 107-113):
the kept entries are exactly those whose index differs from the first
index of their name, i.e. every later occurrence of a repeated name. -/
def duplicateNames (ps : List (Procedure α β)) : List String :=
  let names := ps.map Procedure.name
  (names.enum.filter (fun p => names.indexOf p.2 != p.1)).map Prod.snd

/-- The test `procedures.some(p => p.type === "check")`
(`agent.ts` line 125). -/
def hasCheckProcedure (ps : List (Procedure α β)) : Bool :=
  ps.any Procedure.isCheck

/-- The test `procedures.filter(action).every(p => p.nextProcedure)`
(`agent.ts` lines 126-128); note the truthiness test, under which an
empty-string next counts as undeclared. -/
def allActionsDeclareNext (ps : List (Procedure α β)) : Bool :=
  (ps.filter Procedure.isAction).all (fun p => optTruthy p.nextOpt)

/-- Lookup in the name-to-procedure `Map` (`agent.ts` lines 176-177).
`Map.set` overwrites, so the entry seen by `get` is the last procedure
with that name in declaration order. -/
def procedureMapGet (ps : List (Procedure α β)) (name : String) : Option (Procedure α β) :=
  ps.reverse.find? (fun p => p.name == name)

/-- Sequential fallthrough of the action branch (`agent.ts` lines
221-223): the procedure after the current one in declaration order.
`findIndex` yields `-1` when the name is absent, making the successor
index `0` in that case. -/
def seqNext (ps : List (Procedure α β)) (name : String) : Option (Procedure α β) :=
  match ps.findIdx? (fun q => q.name == name) with
  | some i => ps[i + 1]?
  | none => ps[0]?

/-- Outcome of one iteration of the interpreter loop: completion of the
walk (`break` or a transition to a missing procedure recorded by the
follow-up test of the `while` condition is represented by `cont none`),
an iteration-limit failure, or a transition. -/
inductive StepResult (α β : Type) where
  | halt (st : StateValues α β) (invoked : String)
  | limit (e : AgentError) (st : StateValues α β)
  | cont (next : Option (Procedure α β)) (st : StateValues α β) (invoked : String)

/-- State-container contents carried by a step outcome. -/
def StepResult.state : StepResult α β → StateValues α β
  | StepResult.halt st _ => st
  | StepResult.limit _ st => st
  | StepResult.cont _ st _ => st

/-- Embeds one iteration of the `while (currentProcedure)` loop of
`Agent.run` (`agent.ts` lines 184-240): the ceiling test, then the
action branch (body, `setInput`/`setOutput`, `END` test, explicit-next
test with truthiness, sequential fallthrough) or the check branch
(body, falsy-or-`END` test, lookup). -/
def stepProc (props : AgentProps ι α β ω) (p : Procedure α β) (iteration : Nat)
    (st : StateValues α β) : StepResult α β :=
  if ceilingReached iteration (effectiveCeiling props.maxIterations) then
    StepResult.limit (AgentError.procedureChain (iterLimitMsg props.maxIterations)) st
  else
    match p with
    | Procedure.action a =>
      let values := a.run st
      let st' : StateValues α β := { input := values.input, output := values.output }
      match a.nextProcedure with
      | some s =>
        if s = ENDmark then StepResult.halt st' a.name
        else if s ≠ "" then StepResult.cont (procedureMapGet props.procedures s) st' a.name
        else StepResult.cont (seqNext props.procedures a.name) st' a.name
      | none => StepResult.cont (seqNext props.procedures a.name) st' a.name
    | Procedure.check c =>
      match c.run st with
      | none => StepResult.halt st c.name
      | some s =>
        if s = "" ∨ s = ENDmark then StepResult.halt st c.name
        else StepResult.cont (procedureMapGet props.procedures s) st c.name

/-- Result of the interpreter loop: normal completion, an error throw,
or fuel exhaustion of the embedding (the walk was still running). -/
inductive LoopResult (α β : Type) where
  | completed (st : StateValues α β) (trace : List String)
  | failed (e : AgentError) (st : StateValues α β) (trace : List String)
  | outOfFuel (st : StateValues α β) (trace : List String)
deriving DecidableEq

/-- Fuelled embedding of the `while (currentProcedure)` loop.  The
`trace` records the names of the procedure bodies invoked, in order. -/
def runLoop (props : AgentProps ι α β ω) :
    Nat → Option (Procedure α β) → Nat → StateValues α β → List String → LoopResult α β
  | 0, _, _, st, trace => LoopResult.outOfFuel st trace
  | _ + 1, none, _, st, trace => LoopResult.completed st trace
  | fuel + 1, some p, iteration, st, trace =>
    match stepProc props p iteration st with
    | StepResult.limit e st' => LoopResult.failed e st' trace
    | StepResult.halt st' invoked => LoopResult.completed st' (trace ++ [invoked])
    | StepResult.cont next st' invoked => runLoop props fuel next (iteration + 1) st' (trace ++ [invoked])

/-- Result of `Agent.run`: the validated output, a raised error, or fuel
exhaustion of the embedding.  Every constructor carries the final
contents of the `State` container and the trace of invoked bodies. -/
inductive RunResult (α β ω : Type) where
  | ok (out : ω) (st : StateValues α β) (trace : List String)
  | err (e : AgentError) (st : StateValues α β) (trace : List String)
  | outOfFuel (st : StateValues α β) (trace : List String)
deriving DecidableEq

/-- Trace of invoked procedure bodies of a run result. -/
def RunResult.trace : RunResult α β ω → List String
  | RunResult.ok _ _ tr => tr
  | RunResult.err _ _ tr => tr
  | RunResult.outOfFuel _ tr => tr

/-- Error surfaced by a run, when one was raised. -/
def RunResult.error? : RunResult α β ω → Option AgentError
  | RunResult.err e _ _ => some e
  | _ => none

/-- Final contents of the `State` container after a run. -/
def RunResult.finalState : RunResult α β ω → StateValues α β
  | RunResult.ok _ st _ => st
  | RunResult.err _ st _ => st
  | RunResult.outOfFuel st _ => st

/-- Embeds `Agent.run` (`agent.ts` lines 167-257): parse and store the
input, validate names then the chain, walk the loop from
`procedures[0]`, and validate the final output. -/
def Agent.run (props : AgentProps ι α β ω) (fuel : Nat) (st₀ : StateValues α β)
    (input : ι) : RunResult α β ω :=
  match props.parseInput input with
  | none => RunResult.err (AgentError.stateValidation inputInvalidMsg) st₀ []
  | some parsed =>
    let st1 : StateValues α β := { st₀ with input := parsed }
    let dups := duplicateNames props.procedures
    if dups.length > 0 then
      RunResult.err (AgentError.procedureName duplicateNamesMsg dups) st1 []
    else if hasCheckProcedure props.procedures && !allActionsDeclareNext props.procedures then
      RunResult.err (AgentError.procedureChain chainInconsistentMsg) st1 []
    else
      match runLoop props fuel props.procedures[0]? 0 st1 [] with
      | LoopResult.completed st tr =>
        match props.parseOutput st.output with
        | some o => RunResult.ok o st tr
        | none => RunResult.err (AgentError.stateValidation outputInvalidMsg) st tr
      | LoopResult.failed e st tr => RunResult.err e st tr
      | LoopResult.outOfFuel st tr => RunResult.outOfFuel st tr

/-- Bound under which a walk of `n` dispatches never trips the ceiling
test: `n` at most the finite ceiling, or an unbounded ceiling. -/
def withinCeiling (n : Nat) : MaxIter → Bool
  | MaxIter.num c => decide (n ≤ c)
  | MaxIter.infinity => true

section Fixtures

/-- Concrete two-action cycle of claim C4 (`a ↔ b`, identity bodies,
`maxIterations = 5`). -/
def cycleProps : AgentProps Nat Nat Nat Nat where
  maxIterations := some (MaxIter.num 5)
  procedures :=
    [Procedure.action { name := "a", nextProcedure := some "b", run := fun st => st },
     Procedure.action { name := "b", nextProcedure := some "a", run := fun st => st }]
  parseInput := fun n => some n
  parseOutput := fun n => some n

/-- Concrete step list with two identically named sequential actions. -/
def dupNameProps : AgentProps Nat Nat Nat Nat where
  maxIterations := none
  procedures :=
    [Procedure.action { name := "a", run := fun st => st },
     Procedure.action { name := "a", run := fun st => st }]
  parseInput := fun n => some n
  parseOutput := fun n => some n

/-- Concrete step list with a name collision between an action lacking a
declared next and a check. -/
def dupMixProps : AgentProps Nat Nat Nat Nat where
  maxIterations := none
  procedures :=
    [Procedure.action { name := "r", run := fun st => st },
     Procedure.check { name := "r", run := fun _ => some "r" }]
  parseInput := fun n => some n
  parseOutput := fun n => some n

/-- Concrete agent whose check routes to a name absent from the lookup
table after an action has written the output. -/
def checkMissProps : AgentProps Nat Nat Nat Nat where
  maxIterations := none
  procedures :=
    [Procedure.action { name := "work", nextProcedure := some "route", run := fun st => ⟨st.input, st.input + 1⟩ },
     Procedure.check { name := "route", run := fun _ => some "missing" }]
  parseInput := fun n => some n
  parseOutput := fun n => some n

/-- Body of the self-looping action of claim C8. -/
def bumpBody : StateValues Nat Nat → StateValues Nat Nat :=
  fun st => ⟨st.input + 1, st.output + 1⟩

/-- Concrete self-looping action with `maxIterations = 2` and a
state-writing body. -/
def selfLoopProps : AgentProps Nat Nat Nat Nat where
  maxIterations := some (MaxIter.num 2)
  procedures := [Procedure.action { name := "a", nextProcedure := some "a", run := bumpBody }]
  parseInput := fun n => some n
  parseOutput := fun n => some n

/-- Concrete self-looping action with the falsy ceiling configuration
`maxIterations = 0` of claim C9. -/
def zeroCeilingProps : AgentProps Nat Nat Nat Nat where
  maxIterations := some (MaxIter.num 0)
  procedures := [Procedure.action { name := "a", nextProcedure := some "a", run := fun st => st }]
  parseInput := fun n => some n
  parseOutput := fun n => some n

/-- Concrete sequential two-action agent with distinct names. -/
def seqProps : AgentProps Nat Nat Nat Nat where
  maxIterations := none
  procedures :=
    [Procedure.action { name := "one", run := fun st => ⟨st.input, st.input + 1⟩ },
     Procedure.action { name := "two", run := fun st => ⟨st.input, st.output * 2⟩ }]
  parseInput := fun n => some n
  parseOutput := fun n => some n

/-- Concrete step list with a check and an action lacking a declared
next, with distinct names. -/
def chainProps : AgentProps Nat Nat Nat Nat where
  maxIterations := none
  procedures :=
    [Procedure.action { name := "go", run := fun st => st },
     Procedure.check { name := "route", run := fun _ => some "go" }]
  parseInput := fun n => some n
  parseOutput := fun n => some n

end Fixtures

theorem ceilingReached_false_of_within {n i : Nat} {m : MaxIter}
    (h : withinCeiling n m = true) (hi : i < n) : ceilingReached i m = false := by
  cases m with
  | num c =>
    simp only [withinCeiling, decide_eq_true_eq] at h
    simp only [ceilingReached, decide_eq_false_iff_not]
    omega
  | infinity => rfl

theorem indexOf_le_of_getElem {l : List String} {i : Nat} (h : i < l.length) :
    l.indexOf l[i] ≤ i := by
  induction l generalizing i with
  | nil => simp at h
  | cons b t ih =>
    cases i with
    | zero => simp [List.indexOf_cons_self]
    | succ i =>
      have hit : i < t.length := by simpa using h
      rcases eq_or_ne b (t[i]) with hb | hb
      · rw [List.getElem_cons_succ, ← hb, List.indexOf_cons_self]; omega
      · rw [List.getElem_cons_succ, List.indexOf_cons_ne _ (by simpa using hb)]
        have := ih hit
        omega

theorem duplicateNames_eq_nil {α β : Type} {ps : List (Procedure α β)}
    (h : (ps.map Procedure.name).Nodup) : duplicateNames ps = [] := by
  unfold duplicateNames
  rw [List.map_eq_nil_iff, List.filter_eq_nil_iff]
  rintro ⟨i, n⟩ hmem
  rw [List.mem_enum_iff_getElem?] at hmem
  have hi : i < (ps.map Procedure.name).length := by
    by_contra hlt
    rw [List.getElem?_eq_none (by omega)] at hmem
    exact Option.noConfusion hmem
  rw [List.getElem?_eq_getElem hi] at hmem
  have hn : (ps.map Procedure.name)[i] = n := Option.some_injective _ hmem
  simp only [bne_iff_ne, ne_eq, Decidable.not_not]
  rw [← hn]
  exact List.indexOf_getElem h i hi

theorem duplicateNames_ne_nil {α β : Type} {ps : List (Procedure α β)} {i j : Nat}
    (hij : i < j) (hj : j < (ps.map Procedure.name).length)
    (heq : (ps.map Procedure.name)[i]? = (ps.map Procedure.name)[j]?) :
    duplicateNames ps ≠ [] := by
  have hi : i < (ps.map Procedure.name).length := by omega
  have hgetj : (ps.map Procedure.name)[j]? = some ((ps.map Procedure.name)[j]) :=
    List.getElem?_eq_getElem hj
  have hget : (ps.map Procedure.name)[i] = (ps.map Procedure.name)[j] := by
    have := heq.symm.trans (List.getElem?_eq_getElem hi)
    rw [hgetj] at this
    exact Option.some_injective _ this.symm
  have hidx : (ps.map Procedure.name).indexOf ((ps.map Procedure.name)[j]) ≤ i :=
    hget ▸ indexOf_le_of_getElem hi
  unfold duplicateNames
  intro hcontra
  rw [List.map_eq_nil_iff, List.filter_eq_nil_iff] at hcontra
  refine hcontra (j, (ps.map Procedure.name)[j]) ?_ ?_
  · rw [List.mem_enum_iff_getElem?]
    exact hgetj
  · simp only [bne_iff_ne, ne_eq, decide_eq_true_eq]
    omega

theorem hasCheckProcedure_map_action {α β : Type} (acts : List (ActionProc α β)) :
    hasCheckProcedure (acts.map Procedure.action) = false := by
  simp [hasCheckProcedure, List.any_eq_false, Procedure.isCheck]

theorem runLoop_seq {ι α β ω : Type} (props : AgentProps ι α β ω)
    (rest : List (ActionProc α β)) :
    ∀ (pre : List (ActionProc α β)),
    props.procedures = (pre ++ rest).map Procedure.action →
    ((pre ++ rest).map ActionProc.name).Nodup →
    (∀ a ∈ rest, a.nextProcedure = none) →
    withinCeiling (pre ++ rest).length (effectiveCeiling props.maxIterations) = true →
    ∀ (fuel : Nat), rest.length + 1 ≤ fuel → ∀ (st : StateValues α β) (trace : List String),
    runLoop props fuel props.procedures[pre.length]? pre.length st trace =
      LoopResult.completed (rest.foldl (fun s a => a.run s) st)
        (trace ++ rest.map ActionProc.name) := by
  induction rest with
  | nil =>
    intro pre hps hnodup hnone hceil fuel hfuel st trace
    have hnone' : props.procedures[pre.length]? = none := by
      rw [List.getElem?_eq_none]
      simp [hps]
    obtain ⟨f, rfl⟩ : ∃ f, fuel = f + 1 := ⟨fuel - 1, by omega⟩
    rw [hnone']
    simp [runLoop]
  | cons a rest ih =>
    intro pre hps hnodup hnone hceil fuel hfuel st trace
    obtain ⟨f, rfl⟩ : ∃ f, fuel = f + 1 := ⟨fuel - 1, by omega⟩
    have hcur : props.procedures[pre.length]? = some (Procedure.action a) := by
      rw [hps, List.map_append, List.getElem?_append_right (by simp)]
      simp
    have hnotmem : a.name ∉ pre.map ActionProc.name := by
      rw [List.map_append] at hnodup
      have hdisj := (List.nodup_append.mp hnodup).2.2
      intro hmem
      exact hdisj hmem (by simp)
    have hceilF : ceilingReached pre.length (effectiveCeiling props.maxIterations) = false :=
      ceilingReached_false_of_within hceil
        (by simp only [List.length_append, List.length_cons]; omega)
    have hseq : seqNext props.procedures a.name = props.procedures[pre.length + 1]? := by
      unfold seqNext
      have hfind : props.procedures.findIdx? (fun q => q.name == a.name) = some pre.length := by
        rw [hps, List.findIdx?_map, List.findIdx?_append]
        have hleft : (pre.findIdx? ((fun q => q.name == a.name) ∘ Procedure.action)) = none := by
          rw [List.findIdx?_eq_none_iff]
          intro x hx
          simp only [Function.comp_apply, Procedure.name, beq_eq_false_iff_ne, ne_eq]
          intro hxa
          exact hnotmem (hxa ▸ List.mem_map_of_mem ActionProc.name hx)
        rw [hleft, Option.none_or, List.findIdx?_cons]
        simp [Procedure.name]
      rw [hfind]
    rw [hcur]
    simp only [runLoop, stepProc, hceilF, Bool.false_eq_true, if_false,
      hnone a (by simp), hseq]
    have hps' : props.procedures = ((pre ++ [a]) ++ rest).map Procedure.action := by
      simpa [List.append_assoc] using hps
    have := ih (pre ++ [a]) hps' (by simpa [List.append_assoc] using hnodup)
      (fun x hx => hnone x (by simp [hx]))
      (by simpa [List.append_assoc] using hceil)
      f (by simpa using hfuel) (a.run st) (trace ++ [a.name])
    simp only [List.length_append, List.length_cons, List.length_nil] at this ⊢
    rw [show pre.length + 1 = pre.length + [a].length by simp] at this ⊢
    simpa [List.foldl_cons, List.append_assoc] using this

theorem stepProc_ne_limit {ι α β ω : Type} (props : AgentProps ι α β ω)
    (p : Procedure α β) (i : Nat) (st : StateValues α β)
    (hceil : ceilingReached i (effectiveCeiling props.maxIterations) = false) :
    ∀ e st', stepProc props p i st ≠ StepResult.limit e st' := by
  intro e st'
  unfold stepProc
  rw [hceil]
  cases p with
  | action a =>
    simp only [Bool.false_eq_true, if_false]
    repeat' split
    all_goals simp
  | check c =>
    simp only [Bool.false_eq_true, if_false]
    repeat' split
    all_goals simp

theorem runLoop_infinity_ne_failed {ι α β ω : Type} (props : AgentProps ι α β ω)
    (hinf : props.maxIterations = some MaxIter.infinity) :
    ∀ (fuel : Nat) (cur : Option (Procedure α β)) (i : Nat) (st : StateValues α β)
      (tr : List String) (e : AgentError) (st' : StateValues α β) (tr' : List String),
    runLoop props fuel cur i st tr ≠ LoopResult.failed e st' tr' := by
  intro fuel
  induction fuel with
  | zero => intro cur i st tr e st' tr'; simp [runLoop]
  | succ f ih =>
    intro cur i st tr e st' tr'
    cases cur with
    | none => simp [runLoop]
    | some p =>
      have hceil : ceilingReached i (effectiveCeiling props.maxIterations) = false := by
        rw [hinf]; rfl
      rw [runLoop]
      cases hstep : stepProc props p i st with
      | limit e0 st0 => exact absurd hstep (stepProc_ne_limit props p i st hceil e0 st0)
      | halt st0 inv => simp
      | cont nxt st0 inv => exact ih nxt (i + 1) st0 (tr ++ [inv]) e st' tr'

theorem runLoop_limit_reached {ι α β ω : Type} (props : AgentProps ι α β ω)
    (p : Procedure α β) (i : Nat) (st : StateValues α β) (tr : List String) (fuel : Nat)
    (hceil : ceilingReached i (effectiveCeiling props.maxIterations) = true) :
    runLoop props (fuel + 1) (some p) i st tr =
      LoopResult.failed (AgentError.procedureChain (iterLimitMsg props.maxIterations)) st tr := by
  rw [runLoop]
  unfold stepProc
  rw [hceil]
  simp

theorem runLoop_check_miss {ι α β ω : Type} (props : AgentProps ι α β ω)
    (c : CheckProc α β) (s : String) (i : Nat) (st : StateValues α β)
    (trace : List String) (fuel : Nat)
    (hrun : c.run st = some s) (hs1 : s ≠ "") (hs2 : s ≠ ENDmark)
    (hmiss : procedureMapGet props.procedures s = none)
    (hceil : ceilingReached i (effectiveCeiling props.maxIterations) = false) :
    runLoop props (fuel + 2) (some (Procedure.check c)) i st trace =
      LoopResult.completed st (trace ++ [c.name]) := by
  have hor : (s = "" ∨ s = ENDmark) = False := by simp [hs1, hs2]
  simp only [runLoop, stepProc, hceil, Bool.false_eq_true, if_false, hrun, hor, hmiss]

theorem runLoop_action_next {ι α β ω : Type} (props : AgentProps ι α β ω)
    (a : ActionProc α β) (s : String) (i fuel : Nat) (st : StateValues α β)
    (trace : List String)
    (hnext : a.nextProcedure = some s) (hsE : s ≠ ENDmark) (hs0 : s ≠ "")
    (hceil : ceilingReached i (effectiveCeiling props.maxIterations) = false) :
    runLoop props (fuel + 1) (some (Procedure.action a)) i st trace =
      runLoop props fuel (procedureMapGet props.procedures s) (i + 1) (a.run st)
        (trace ++ [a.name]) := by
  rw [runLoop]
  unfold stepProc
  simp only [hceil, Bool.false_eq_true, if_false, hnext, hsE, ne_eq, hs0,
    not_false_eq_true, if_true, ite_false]

theorem run_eq_err_dup_names {ι α β ω : Type} (props : AgentProps ι α β ω)
    (input : ι) (parsed : α) (st₀ : StateValues α β) (fuel : Nat)
    (hparse : props.parseInput input = some parsed)
    (hne : duplicateNames props.procedures ≠ []) :
    Agent.run props fuel st₀ input =
      RunResult.err (AgentError.procedureName duplicateNamesMsg (duplicateNames props.procedures))
        { st₀ with input := parsed } [] := by
  unfold Agent.run
  rw [hparse]
  simp only [gt_iff_lt, List.length_pos]
  rw [if_pos hne]

theorem run_eq_err_chain {ι α β ω : Type} (props : AgentProps ι α β ω)
    (input : ι) (parsed : α) (st₀ : StateValues α β) (fuel : Nat)
    (hparse : props.parseInput input = some parsed)
    (hdup : duplicateNames props.procedures = [])
    (hchk : hasCheckProcedure props.procedures = true)
    (hall : allActionsDeclareNext props.procedures = false) :
    Agent.run props fuel st₀ input =
      RunResult.err (AgentError.procedureChain chainInconsistentMsg)
        { st₀ with input := parsed } [] := by
  unfold Agent.run
  rw [hparse]
  simp only [hdup, hchk, hall, List.length_nil, gt_iff_lt, lt_self_iff_false, if_false,
    Bool.not_false, Bool.and_true, if_true]

theorem run_eq_loop {ι α β ω : Type} (props : AgentProps ι α β ω)
    (input : ι) (parsed : α) (st₀ : StateValues α β) (fuel : Nat)
    (hparse : props.parseInput input = some parsed)
    (hdup : duplicateNames props.procedures = [])
    (hvalid : (hasCheckProcedure props.procedures && !allActionsDeclareNext props.procedures) = false) :
    Agent.run props fuel st₀ input =
      match runLoop props fuel props.procedures[0]? 0 { st₀ with input := parsed } [] with
      | LoopResult.completed st tr =>
        match props.parseOutput st.output with
        | some o => RunResult.ok o st tr
        | none => RunResult.err (AgentError.stateValidation outputInvalidMsg) st tr
      | LoopResult.failed e st tr => RunResult.err e st tr
      | LoopResult.outOfFuel st tr => RunResult.outOfFuel st tr := by
  unfold Agent.run
  rw [hparse]
  simp only [hdup, hvalid, List.length_nil, gt_iff_lt, lt_self_iff_false, if_false,
    Bool.false_eq_true]

/-- C2 (amended): for every step list of Action procedures that declare
no `nextProcedure` (and no Check procedure), whose names are pairwise
distinct and whose length does not exceed the effective iteration
ceiling, and every input accepted by the input schema, `Agent.run`
invokes each procedure body exactly once in declaration order (the trace
is the list of names), terminates the walk after the last procedure, and
the final container state is the left fold of the bodies over the parsed
input state. -/
theorem sequential_actions_run_in_declaration_order {ι α β ω : Type}
    (props : AgentProps ι α β ω) (acts : List (ActionProc α β))
    (input : ι) (parsed : α) (st₀ : StateValues α β) (fuel : Nat)
    (hps : props.procedures = acts.map Procedure.action)
    (hnone : ∀ a ∈ acts, a.nextProcedure = none)
    (hnodup : (acts.map ActionProc.name).Nodup)
    (hceil : withinCeiling acts.length (effectiveCeiling props.maxIterations) = true)
    (hparse : props.parseInput input = some parsed)
    (hfuel : acts.length + 1 ≤ fuel) :
    Agent.run props fuel st₀ input =
      match props.parseOutput ((acts.foldl (fun s (a : ActionProc α β) => a.run s) { st₀ with input := parsed }).output) with
      | some o =>
        RunResult.ok o (acts.foldl (fun s (a : ActionProc α β) => a.run s) { st₀ with input := parsed })
          (acts.map ActionProc.name)
      | none =>
        RunResult.err (AgentError.stateValidation outputInvalidMsg)
          (acts.foldl (fun s (a : ActionProc α β) => a.run s) { st₀ with input := parsed })
          (acts.map ActionProc.name) := by
  have hnames : props.procedures.map Procedure.name = acts.map ActionProc.name := by
    rw [hps, List.map_map]; rfl
  have hdup : duplicateNames props.procedures = [] :=
    duplicateNames_eq_nil (hnames ▸ hnodup)
  have hchk : hasCheckProcedure props.procedures = false := by
    rw [hps]; exact hasCheckProcedure_map_action acts
  have hloop := runLoop_seq props acts [] (by simpa using hps)
      (by simpa using hnodup) hnone (by simpa using hceil) fuel hfuel
      { st₀ with input := parsed } []
  simp only [List.length_nil, List.nil_append] at hloop
  rw [run_eq_loop props input parsed st₀ fuel hparse hdup (by rw [hchk]; rfl), hloop]

/-- C2 counterexample: a step list of two sequential Action procedures
(no `nextProcedure`, no Check) that share the name `"a"`, with an
accepted input, makes `Agent.run` raise the duplicate-name error with an
empty trace — no body is invoked at all, so the bodies are not invoked
exactly once each. -/
theorem sequential_actions_duplicate_name_counterexample :
    Agent.run dupNameProps 10 ⟨0, 0⟩ 0 =
      RunResult.err (AgentError.procedureName duplicateNamesMsg ["a"]) ⟨0, 0⟩ [] := by
  decide

/-- Witness for C2: a concrete two-action sequential agent runs both
bodies in order and returns the folded output. -/
theorem sequential_actions_witness :
    Agent.run seqProps 3 ⟨0, 0⟩ 5 = RunResult.ok 12 ⟨5, 12⟩ ["one", "two"] := by
  have h := sequential_actions_run_in_declaration_order seqProps
      [{ name := "one", run := fun st => ⟨st.input, st.input + 1⟩ },
       { name := "two", run := fun st => ⟨st.input, st.output * 2⟩ }]
      5 5 ⟨0, 0⟩ 3 rfl
      (by intro a ha
          rcases List.mem_cons.mp ha with rfl | ha
          · rfl
          rcases List.mem_cons.mp ha with rfl | ha
          · rfl
          cases ha)
      (by decide) (by decide) rfl (by decide)
  rw [h]
  rfl

/-- C3 (amended): for every step list with pairwise distinct procedure
names that contains at least one Check procedure and an Action procedure
declaring no `nextProcedure`, and every accepted input, `Agent.run`
raises the chain-inconsistent `ProcedureChainError` with an empty trace,
before any procedure body executes.  (With duplicated names the
duplicate-name validation fires first instead.) -/
theorem check_without_next_raises_chain_error {ι α β ω : Type}
    (props : AgentProps ι α β ω) (input : ι) (parsed : α) (st₀ : StateValues α β) (fuel : Nat)
    (hnodup : (props.procedures.map Procedure.name).Nodup)
    (hchk : ∃ c, Procedure.check c ∈ props.procedures)
    (hact : ∃ a, Procedure.action a ∈ props.procedures ∧ a.nextProcedure = none)
    (hparse : props.parseInput input = some parsed) :
    Agent.run props fuel st₀ input =
      RunResult.err (AgentError.procedureChain chainInconsistentMsg)
        { st₀ with input := parsed } [] := by
  obtain ⟨c, hc⟩ := hchk
  obtain ⟨a, ha, hanone⟩ := hact
  have hchk' : hasCheckProcedure props.procedures = true := by
    unfold hasCheckProcedure
    rw [List.any_eq_true]
    exact ⟨Procedure.check c, hc, rfl⟩
  have hall : allActionsDeclareNext props.procedures = false := by
    unfold allActionsDeclareNext
    rw [List.all_eq_false]
    refine ⟨Procedure.action a, List.mem_filter.mpr ⟨ha, rfl⟩, ?_⟩
    simp [Procedure.nextOpt, hanone, optTruthy]
  exact run_eq_err_chain props input parsed st₀ fuel hparse
    (duplicateNames_eq_nil hnodup) hchk' hall

/-- C3 counterexample: a step list containing a Check and an Action with
no declared next, but with the shared name `"r"`, raises the
duplicate-name `ProcedureNameError` — not the chain-inconsistent
`ProcedureChainError` the claim promises. -/
theorem chain_error_preempted_by_name_error :
    Agent.run dupMixProps 10 ⟨0, 0⟩ 0 =
      RunResult.err (AgentError.procedureName duplicateNamesMsg ["r"]) ⟨0, 0⟩ [] := by
  decide

/-- Witness for C3: a concrete distinct-name agent with a Check and a
next-less Action raises the chain-inconsistent error before any body
runs. -/
theorem check_without_next_witness :
    Agent.run chainProps 10 ⟨0, 0⟩ 3 =
      RunResult.err (AgentError.procedureChain chainInconsistentMsg) ⟨3, 0⟩ [] := by
  exact check_without_next_raises_chain_error chainProps 3 3 ⟨0, 0⟩ 10 (by decide)
    ⟨{ name := "route", run := fun _ => some "go" }, List.Mem.tail _ (List.Mem.head _)⟩
    ⟨{ name := "go", run := fun st => st }, List.Mem.head _, rfl⟩
    rfl

/-- C6: for every step list in which two procedures (of any variant mix)
share a name — positions `i < j` holding the same name — and every
accepted input, `Agent.run` raises the duplicate-name
`ProcedureNameError` with an empty trace (no body executes), and the
error carries the non-empty list of duplicated names computed by
`duplicateNames`. -/
theorem duplicate_names_raise_name_error {ι α β ω : Type}
    (props : AgentProps ι α β ω) (input : ι) (parsed : α) (st₀ : StateValues α β)
    (fuel i j : Nat)
    (hij : i < j) (hj : j < (props.procedures.map Procedure.name).length)
    (heq : (props.procedures.map Procedure.name)[i]? = (props.procedures.map Procedure.name)[j]?)
    (hparse : props.parseInput input = some parsed) :
    Agent.run props fuel st₀ input =
      RunResult.err (AgentError.procedureName duplicateNamesMsg (duplicateNames props.procedures))
        { st₀ with input := parsed } [] ∧
    duplicateNames props.procedures ≠ [] := by
  have hne := duplicateNames_ne_nil hij hj heq
  exact ⟨run_eq_err_dup_names props input parsed st₀ fuel hparse hne, hne⟩

/-- Witness for C6: the mixed Action/Check pair sharing the name `"r"`
raises the duplicate-name error carrying `["r"]`. -/
theorem duplicate_names_witness :
    Agent.run dupMixProps 7 ⟨0, 0⟩ 1 =
      RunResult.err (AgentError.procedureName duplicateNamesMsg (duplicateNames dupMixProps.procedures))
        ⟨1, 0⟩ [] ∧
    duplicateNames dupMixProps.procedures ≠ [] := by
  exact duplicate_names_raise_name_error dupMixProps 1 1 ⟨0, 0⟩ 7 0 1
    (by decide) (by decide) (by decide) rfl

/-- C4: a cyclic step list of two Action procedures, each declaring the
other as `nextProcedure`, with `maxIterations = 5` and an accepted
input, makes `Agent.run` raise the iteration-limit `ProcedureChainError`
after exactly 5 dispatch attempts (trace of length 5), the first body
having run 3 times and the second 2 times; the error carries the state
after the five body invocations `a, b, a, b, a`. -/
theorem cyclic_two_actions_iteration_limit {ι α β ω : Type}
    (props : AgentProps ι α β ω) (a b : ActionProc α β)
    (input : ι) (parsed : α) (st₀ : StateValues α β) (fuel : Nat)
    (hps : props.procedures = [Procedure.action a, Procedure.action b])
    (hmax : props.maxIterations = some (MaxIter.num 5))
    (hab : a.nextProcedure = some b.name) (hba : b.nextProcedure = some a.name)
    (hne : a.name ≠ b.name)
    (haE : a.name ≠ ENDmark) (hbE : b.name ≠ ENDmark)
    (ha0 : a.name ≠ "") (hb0 : b.name ≠ "")
    (hparse : props.parseInput input = some parsed)
    (hfuel : 6 ≤ fuel) :
    Agent.run props fuel st₀ input =
      RunResult.err (AgentError.procedureChain (iterLimitMsg (some (MaxIter.num 5))))
        (a.run (b.run (a.run (b.run (a.run { st₀ with input := parsed })))))
        [a.name, b.name, a.name, b.name, a.name] ∧
    ([a.name, b.name, a.name, b.name, a.name].count a.name = 3 ∧
     [a.name, b.name, a.name, b.name, a.name].count b.name = 2 ∧
     ([a.name, b.name, a.name, b.name, a.name] : List String).length = 5) := by
  have hdup : duplicateNames props.procedures = [] := by
    apply duplicateNames_eq_nil
    rw [hps]
    simp [Procedure.name, hne]
  have hvalid : (hasCheckProcedure props.procedures && !allActionsDeclareNext props.procedures) = false := by
    rw [hps]; rfl
  have hmga : procedureMapGet props.procedures a.name = some (Procedure.action a) := by
    rw [hps]
    have h1 : (b.name == a.name) = false := beq_eq_false_iff_ne.mpr (Ne.symm hne)
    simp [procedureMapGet, Procedure.name, List.find?, h1]
  have hmgb : procedureMapGet props.procedures b.name = some (Procedure.action b) := by
    rw [hps]
    simp [procedureMapGet, Procedure.name, List.find?]
  have hceil0 : ∀ i, i < 5 → ceilingReached i (effectiveCeiling props.maxIterations) = false := by
    intro i hi
    rw [hmax]
    simp only [effectiveCeiling, ceilingReached, decide_eq_false_iff_not]
    omega
  have hceil5 : ceilingReached 5 (effectiveCeiling props.maxIterations) = true := by
    rw [hmax]; rfl
  refine ⟨?_, by simp [hne, Ne.symm hne], by simp [hne, Ne.symm hne], rfl⟩
  rw [run_eq_loop props input parsed st₀ fuel hparse hdup hvalid]
  obtain ⟨f, rfl⟩ : ∃ f, fuel = f + 6 := ⟨fuel - 6, by omega⟩
  have hcur0 : props.procedures[0]? = some (Procedure.action a) := by rw [hps]; rfl
  rw [hcur0, (by omega : f + 6 = f + 1 + 1 + 1 + 1 + 1 + 1)]
  rw [runLoop_action_next props a b.name 0 _ _ _ hab hbE hb0 (hceil0 0 (by omega)), hmgb]
  rw [runLoop_action_next props b a.name 1 _ _ _ hba haE ha0 (hceil0 1 (by omega)), hmga]
  rw [runLoop_action_next props a b.name 2 _ _ _ hab hbE hb0 (hceil0 2 (by omega)), hmgb]
  rw [runLoop_action_next props b a.name 3 _ _ _ hba haE ha0 (hceil0 3 (by omega)), hmga]
  rw [runLoop_action_next props a b.name 4 _ _ _ hab hbE hb0 (hceil0 4 (by omega)), hmgb]
  rw [runLoop_limit_reached props (Procedure.action b) 5 _ _ f hceil5, hmax]
  simp

/-- Witness for C4: the concrete identity-body cycle `a ↔ b` with
`maxIterations = 5` and input `7`. -/
theorem cyclic_two_actions_witness :
    Agent.run cycleProps 20 ⟨0, 0⟩ 7 =
      RunResult.err (AgentError.procedureChain (iterLimitMsg (some (MaxIter.num 5))))
        ⟨7, 0⟩ ["a", "b", "a", "b", "a"] ∧
    ((["a", "b", "a", "b", "a"] : List String).count "a" = 3 ∧
     (["a", "b", "a", "b", "a"] : List String).count "b" = 2 ∧
     (["a", "b", "a", "b", "a"] : List String).length = 5) :=
  cyclic_two_actions_iteration_limit cycleProps
    { name := "a", nextProcedure := some "b", run := fun st => st }
    { name := "b", nextProcedure := some "a", run := fun st => st }
    7 7 ⟨0, 0⟩ 20 rfl rfl rfl rfl (by decide) (by decide) (by decide)
    (by decide) (by decide) rfl (by omega)

/-- C5: a Check body returning a name absent from the lookup table makes
the loop complete silently with the state unchanged (first conjunct,
general), and such a run returns the output accumulated so far after
output-schema validation rather than failing (second conjunct, a
concrete run whose check routes to the unknown name `"missing"` after an
action wrote the output). -/
theorem check_unknown_name_silent_termination :
    (∀ (ι α β ω : Type) (props : AgentProps ι α β ω) (c : CheckProc α β) (s : String)
       (i : Nat) (st : StateValues α β) (trace : List String) (fuel : Nat),
       c.run st = some s → s ≠ "" → s ≠ ENDmark →
       procedureMapGet props.procedures s = none →
       ceilingReached i (effectiveCeiling props.maxIterations) = false →
       runLoop props (fuel + 2) (some (Procedure.check c)) i st trace =
         LoopResult.completed st (trace ++ [c.name])) ∧
    Agent.run checkMissProps 10 ⟨0, 0⟩ 41 = RunResult.ok 42 ⟨41, 42⟩ ["work", "route"] := by
  constructor
  · intro ι α β ω props c s i st trace fuel hrun hs1 hs2 hmiss hceil
    exact runLoop_check_miss props c s i st trace fuel hrun hs1 hs2 hmiss hceil
  · decide

/-- Witness for C5: the concrete check `"route"` returning the unknown
name `"missing"` completes the loop with the state untouched. -/
theorem check_unknown_name_witness :
    runLoop checkMissProps 5
      (some (Procedure.check { name := "route", run := fun _ => some "missing" }))
      1 ⟨41, 42⟩ ["work"] = LoopResult.completed ⟨41, 42⟩ ["work", "route"] :=
  check_unknown_name_silent_termination.1 Nat Nat Nat Nat checkMissProps
    { name := "route", run := fun _ => some "missing" } "missing" 1 ⟨41, 42⟩ ["work"] 3
    rfl (by decide) (by decide) rfl rfl

/-- C7: the iteration ceiling defaults to 100 when `maxIterations` is
unset; an `Infinity` configuration disables the iteration-limit check
(the loop can never fail); and whenever the iteration counter reaches
the effective ceiling with a procedure still pending, the loop fails
with the iteration-limit `ProcedureChainError`. -/
theorem iteration_ceiling_default_and_unbounded :
    effectiveCeiling none = MaxIter.num 100 ∧
    (∀ (ι α β ω : Type) (props : AgentProps ι α β ω),
      props.maxIterations = some MaxIter.infinity →
      ∀ (fuel : Nat) (cur : Option (Procedure α β)) (i : Nat) (st : StateValues α β)
        (tr : List String) (e : AgentError) (st' : StateValues α β) (tr' : List String),
      runLoop props fuel cur i st tr ≠ LoopResult.failed e st' tr') ∧
    (∀ (ι α β ω : Type) (props : AgentProps ι α β ω) (p : Procedure α β)
       (i : Nat) (st : StateValues α β) (tr : List String) (fuel : Nat),
      ceilingReached i (effectiveCeiling props.maxIterations) = true →
      runLoop props (fuel + 1) (some p) i st tr =
        LoopResult.failed (AgentError.procedureChain (iterLimitMsg props.maxIterations)) st tr) := by
  refine ⟨rfl, ?_, ?_⟩
  · intro ι α β ω props hinf fuel cur i st tr e st' tr'
    exact runLoop_infinity_ne_failed props hinf fuel cur i st tr e st' tr'
  · intro ι α β ω props p i st tr fuel hceil
    exact runLoop_limit_reached props p i st tr fuel hceil

/-- Witness for C7: the self-looping agent with ceiling 2 fails at
iteration counter 2. -/
theorem iteration_ceiling_witness :
    runLoop selfLoopProps 4
      (some (Procedure.action { name := "a", nextProcedure := some "a", run := bumpBody }))
      2 ⟨2, 2⟩ ["a", "a"] =
      LoopResult.failed (AgentError.procedureChain (iterLimitMsg (some (MaxIter.num 2))))
        ⟨2, 2⟩ ["a", "a"] :=
  iteration_ceiling_default_and_unbounded.2.2 Nat Nat Nat Nat selfLoopProps
    (Procedure.action { name := "a", nextProcedure := some "a", run := bumpBody })
    2 ⟨2, 2⟩ ["a", "a"] 3 rfl

/-- C8 (amended): when `Agent.run` aborts with the iteration-limit
error, the caller receives the error and no output, but the `State`
container retains the values written by the Action bodies that already
executed — no rollback occurs.  Concretely, the self-looping writer with
`maxIterations = 2` surfaces the error with the container holding the
twice-bumped state. -/
theorem iteration_limit_partial_state_retained :
    Agent.run selfLoopProps 10 ⟨0, 0⟩ 0 =
      RunResult.err (AgentError.procedureChain (iterLimitMsg (some (MaxIter.num 2))))
        (bumpBody (bumpBody ⟨0, 0⟩)) ["a", "a"] := by
  decide

/-- C8 counterexample: after the iteration-limit error of the
self-looping writer, the container holds the mid-run mutated values
`⟨2, 2⟩`, which differ from the pre-run values `⟨0, 0⟩` — the partial
state is not discarded. -/
theorem iteration_limit_state_discarded_counterexample :
    (Agent.run selfLoopProps 10 ⟨0, 0⟩ 0).error? =
      some (AgentError.procedureChain (iterLimitMsg (some (MaxIter.num 2)))) ∧
    (Agent.run selfLoopProps 10 ⟨0, 0⟩ 0).finalState = ⟨2, 2⟩ ∧
    (⟨2, 2⟩ : StateValues Nat Nat) ≠ ⟨0, 0⟩ := by
  decide

/-- C9: a configured `maxIterations = 0` is falsy, so the effective
ceiling silently becomes the default 100 (same interpolated error
message as the default), and a cyclic run with `maxIterations = 0`
performs 100 dispatches before failing with the iteration-limit
error. -/
theorem zero_max_iterations_behaves_as_default :
    effectiveCeiling (some (MaxIter.num 0)) = MaxIter.num 100 ∧
    iterLimitMsg (some (MaxIter.num 0)) = iterLimitMsg none ∧
    (Agent.run zeroCeilingProps 200 ⟨0, 0⟩ 7).trace.length = 100 ∧
    (Agent.run zeroCeilingProps 200 ⟨0, 0⟩ 7).error? =
      some (AgentError.procedureChain (iterLimitMsg (some (MaxIter.num 0)))) := by
  refine ⟨rfl, rfl, by decide, by decide⟩

/-- C10: during an iteration whose current procedure is a Check, the
engine itself writes nothing to the `State` container — the state
carried out of the step (into the next iteration, a completion, or an
iteration-limit failure) equals the state the step received; any
mutation could come only from the check body aliasing the shared
reference, which the engine does not perform. -/
theorem check_step_preserves_state {ι α β ω : Type} (props : AgentProps ι α β ω)
    (c : CheckProc α β) (i : Nat) (st : StateValues α β) :
    (stepProc props (Procedure.check c) i st).state = st := by
  simp only [stepProc]
  repeat' split
  all_goals rfl

theorem flatOf_cons_obj (k : Key) (f rest : List (Key × JValue)) :
    flatOf ((k, JValue.vobj f) :: rest) =
      (flatOf f).map (fun pv => (k :: pv.1, pv.2)) ++ flatOf rest := by
  rw [flatOf]

theorem flatOf_cons_leaf (k : Key) (v : JValue) (rest : List (Key × JValue))
    (h : ∀ f, v = JValue.vobj f → False) :
    flatOf ((k, v) :: rest) = ([k], v) :: flatOf rest := by
  rw [flatOf]
  exact h

theorem wfFieldsList_cons {k : Key} {v : JValue} {rest : List (Key × JValue)}
    (hwf : wfFieldsList ((k, v) :: rest) = true) :
    keyOkB k = true ∧ (rest.any (fun p => p.1 == k)) = false ∧
    wfValue v = true ∧ wfFieldsList rest = true := by
  rw [wfFieldsList] at hwf
  simp only [Bool.and_eq_true, Bool.not_eq_true'] at hwf
  exact ⟨hwf.1.1.1, hwf.1.1.2, hwf.1.2, hwf.2⟩

theorem wfValue_obj {f : List (Key × JValue)} (h : wfValue (JValue.vobj f) = true) :
    f ≠ [] ∧ wfFieldsList f = true := by
  rw [wfValue] at h
  simp only [Bool.and_eq_true, Bool.not_eq_true'] at h
  refine ⟨?_, h.2⟩
  cases f with
  | nil => exact absurd h.1 (by simp)
  | cons a t => simp

theorem flatOf_paths_ne_nil {fields : List (Key × JValue)} :
    ∀ pv ∈ flatOf fields, pv.1 ≠ [] := by
  induction fields using flatOf.induct with
  | case1 => simp [flatOf]
  | case2 k rest f ihf ihrest =>
    intro pv hpv
    rw [flatOf_cons_obj] at hpv
    rcases List.mem_append.mp hpv with h | h
    · obtain ⟨qv, _, rfl⟩ := List.mem_map.mp h
      simp
    · exact ihrest pv h
  | case3 k rest v hno ihrest =>
    intro pv hpv
    rw [flatOf_cons_leaf k v rest hno] at hpv
    rcases List.mem_cons.mp hpv with rfl | h
    · simp
    · exact ihrest pv h

theorem flatOf_segs_ok {fields : List (Key × JValue)} (hwf : wfFieldsList fields = true) :
    ∀ pv ∈ flatOf fields, ∀ seg ∈ pv.1, keyOkB seg = true := by
  induction fields using flatOf.induct with
  | case1 => simp [flatOf]
  | case2 k rest f ihf ihrest =>
    obtain ⟨hk, hany, hv, hrest⟩ := wfFieldsList_cons hwf
    obtain ⟨hfne, hf⟩ := wfValue_obj hv
    intro pv hpv
    rw [flatOf_cons_obj] at hpv
    rcases List.mem_append.mp hpv with h | h
    · obtain ⟨qv, hqv, rfl⟩ := List.mem_map.mp h
      intro seg hseg
      rcases List.mem_cons.mp hseg with rfl | hseg
      · exact hk
      · exact ihf hf qv hqv seg hseg
    · exact ihrest hrest pv h
  | case3 k rest v hno ihrest =>
    obtain ⟨hk, hany, hv, hrest⟩ := wfFieldsList_cons hwf
    intro pv hpv
    rw [flatOf_cons_leaf k v rest hno] at hpv
    rcases List.mem_cons.mp hpv with rfl | h
    · intro seg hseg
      rcases List.mem_cons.mp hseg with rfl | hseg
      · exact hk
      · cases hseg
    · exact ihrest hrest pv h

theorem flatOf_ne_nil {fields : List (Key × JValue)}
    (hwf : wfFieldsList fields = true) (hne : fields ≠ []) : flatOf fields ≠ [] := by
  induction fields using flatOf.induct with
  | case1 => exact absurd rfl hne
  | case2 k rest f ihf ihrest =>
    obtain ⟨hk, hany, hv, hrest⟩ := wfFieldsList_cons hwf
    obtain ⟨hfne, hf⟩ := wfValue_obj hv
    rw [flatOf_cons_obj]
    have := ihf hf hfne
    intro hcontra
    rcases List.append_eq_nil.mp hcontra with ⟨h1, h2⟩
    exact this (List.map_eq_nil_iff.mp h1)
  | case3 k rest v hno ihrest =>
    rw [flatOf_cons_leaf k v rest hno]
    simp

theorem flatOf_head_key {fields : List (Key × JValue)} :
    ∀ pv ∈ flatOf fields, ∃ h t, pv.1 = h :: t ∧ h ∈ fields.map Prod.fst := by
  induction fields using flatOf.induct with
  | case1 => simp [flatOf]
  | case2 k rest f ihf ihrest =>
    intro pv hpv
    rw [flatOf_cons_obj] at hpv
    rcases List.mem_append.mp hpv with h | h
    · obtain ⟨qv, hqv, rfl⟩ := List.mem_map.mp h
      exact ⟨k, qv.1, rfl, List.mem_map_of_mem Prod.fst (List.mem_cons_self _ _)⟩
    · obtain ⟨h0, t0, hpath, hmem⟩ := ihrest pv h
      exact ⟨h0, t0, hpath, by rw [List.map_cons]; exact List.mem_cons_of_mem _ hmem⟩
  | case3 k rest v hno ihrest =>
    intro pv hpv
    rw [flatOf_cons_leaf k v rest hno] at hpv
    rcases List.mem_cons.mp hpv with rfl | h
    · exact ⟨k, [], rfl, List.mem_map_of_mem Prod.fst (List.mem_cons_self _ _)⟩
    · obtain ⟨h0, t0, hpath, hmem⟩ := ihrest pv h
      exact ⟨h0, t0, hpath, by rw [List.map_cons]; exact List.mem_cons_of_mem _ hmem⟩

theorem flatOf_paths_nodup {fields : List (Key × JValue)}
    (hwf : wfFieldsList fields = true) : ((flatOf fields).map Prod.fst).Nodup := by
  induction fields using flatOf.induct with
  | case1 => simp [flatOf]
  | case2 k rest f ihf ihrest =>
    obtain ⟨hk, hany, hv, hrest⟩ := wfFieldsList_cons hwf
    obtain ⟨hfne, hf⟩ := wfValue_obj hv
    rw [flatOf_cons_obj, List.map_append, List.nodup_append]
    refine ⟨?_, ihrest hrest, ?_⟩
    · rw [List.map_map]
      have : (Prod.fst ∘ fun pv : List Key × JValue => ((k :: pv.1 : List Key), pv.2)) =
          (fun p : List Key => k :: p) ∘ Prod.fst := rfl
      rw [this, ← List.map_map]
      exact (ihf hf).map (fun x y hxy => by simpa using hxy)
    · intro p hp hq
      simp only [List.map_map, List.mem_map] at hp
      obtain ⟨qv, hqv, rfl⟩ := hp
      rw [List.mem_map] at hq
      obtain ⟨rv, hrv, hkey⟩ := hq
      obtain ⟨h0, t0, hpath, hmem⟩ := flatOf_head_key rv hrv
      rw [hpath] at hkey
      simp only [Function.comp_apply, List.cons.injEq] at hkey
      have hk0 : h0 = k := hkey.1
      subst hk0
      rw [List.any_eq_false] at hany
      rw [List.mem_map] at hmem
      obtain ⟨entry, hentry, rfl⟩ := hmem
      exact absurd (by simp : (entry.1 == entry.1) = true) (by simpa using hany entry hentry)
  | case3 k rest v hno ihrest =>
    obtain ⟨hk, hany, hv, hrest⟩ := wfFieldsList_cons hwf
    rw [flatOf_cons_leaf k v rest hno, List.map_cons, List.nodup_cons]
    refine ⟨?_, ihrest hrest⟩
    intro hcontra
    rw [List.mem_map] at hcontra
    obtain ⟨rv, hrv, hpath⟩ := hcontra
    obtain ⟨h0, t0, hpath2, hmem⟩ := flatOf_head_key rv hrv
    rw [hpath2] at hpath
    have hk0 : h0 = k := by
      have hcons := hpath
      simp only [List.cons.injEq] at hcons
      exact hcons.1
    subst hk0
    rw [List.any_eq_false] at hany
    rw [List.mem_map] at hmem
    obtain ⟨entry, hentry, rfl⟩ := hmem
    exact absurd (by simp : (entry.1 == entry.1) = true) (by simpa using hany entry hentry)

theorem keyOkB_cons {c : Char} {t : Key} (h : keyOkB (c :: t) = true) :
    c ≠ usep ∧ keyOkB t = true := by
  simp only [keyOkB, List.all_cons, Bool.and_eq_true, Bool.not_eq_true', beq_eq_false_iff_ne,
    ne_eq] at h
  exact ⟨h.1, by simpa [keyOkB] using h.2⟩

theorem intercalateK_cons {k : Key} {ks : List Key} (h : ks ≠ []) :
    intercalateK (k :: ks) = k ++ usep :: intercalateK ks := by
  cases ks with
  | nil => exact absurd rfl h
  | cons a t => rfl

theorem splitOnU_no_sep {a : Key} (ha : keyOkB a = true) : splitOnU a = [a] := by
  induction a with
  | nil => rfl
  | cons c t ih =>
    obtain ⟨hc, ht⟩ := keyOkB_cons ha
    rw [splitOnU, if_neg hc, ih ht]

theorem splitOnU_sep_append (a b : Key) (ha : keyOkB a = true) :
    splitOnU (a ++ usep :: b) = a :: splitOnU b := by
  induction a with
  | nil =>
    rw [List.nil_append, splitOnU, if_pos rfl]
  | cons c t ih =>
    obtain ⟨hc, ht⟩ := keyOkB_cons ha
    rw [List.cons_append, splitOnU, if_neg hc, ih ht]

theorem splitOnU_intercalateK {ps : List Key} (hne : ps ≠ [])
    (hok : ∀ p ∈ ps, keyOkB p = true) : splitOnU (intercalateK ps) = ps := by
  induction ps with
  | nil => exact absurd rfl hne
  | cons p t ih =>
    cases t with
    | nil => exact splitOnU_no_sep (hok p (List.mem_cons_self _ _))
    | cons q u =>
      rw [intercalateK_cons (by simp),
        splitOnU_sep_append p _ (hok p (List.mem_cons_self _ _)),
        ih (by simp) (fun r hr => hok r (List.mem_cons_of_mem _ hr))]

theorem startsWithK_self_append (p t : Key) : startsWithK p (p ++ t) = true := by
  induction p with
  | nil => rfl
  | cons c q ih => simp [startsWithK, ih]

theorem objSet_append {l : Flat} {k : Key} {v : JValue} (h : ∀ p ∈ l, p.1 ≠ k) :
    objSet l k v = l ++ [(k, v)] := by
  unfold objSet
  have hany : l.any (fun p => p.1 == k) = false := by
    rw [List.any_eq_false]
    intro p hp
    simpa using h p hp
  simp [hany]

theorem processEntries_cons_leaf (k : Key) (v : JValue) (rest : List (Key × JValue))
    (pfx : Key) (result : Flat) (hno : ∀ f, v = JValue.vobj f → False) :
    processEntries ((k, v) :: rest) pfx result =
      processEntries rest pfx (objSet result (joinKey pfx k) v) := by
  rw [processEntries]
  exact hno

theorem emitKeys_nil (pfx : Key) : emitKeys pfx [] = [] := by
  simp [emitKeys, flatOf]

theorem emitKeys_cons_obj (pfx : Key) (k : Key) (f rest : List (Key × JValue)) :
    emitKeys pfx ((k, JValue.vobj f) :: rest) =
      emitKeys (pfx ++ usep :: k) f ++ emitKeys pfx rest := by
  unfold emitKeys
  rw [flatOf_cons_obj, List.map_append, List.map_map]
  congr 1
  apply List.map_congr_left
  intro pv hpv
  have hne := flatOf_paths_ne_nil pv hpv
  simp only [Function.comp_apply, intercalateK_cons hne, Prod.mk.injEq, and_true]
  simp [List.append_assoc]

theorem emitKeys_cons_leaf (pfx : Key) (k : Key) (v : JValue) (rest : List (Key × JValue))
    (hno : ∀ f, v = JValue.vobj f → False) :
    emitKeys pfx ((k, v) :: rest) = (pfx ++ usep :: k, v) :: emitKeys pfx rest := by
  unfold emitKeys
  rw [flatOf_cons_leaf k v rest hno]
  simp [intercalateK]

theorem processEntries_eq : ∀ (fields : List (Key × JValue)) (pfx : Key) (result : Flat),
    (∀ q ∈ emitKeys pfx fields, ∀ r ∈ result, q.1 ≠ r.1) →
    ((emitKeys pfx fields).map Prod.fst).Nodup →
    pfx ≠ [] →
    processEntries fields pfx result = result ++ emitKeys pfx fields := by
  intro fields pfx result
  induction fields, pfx, result using processEntries.induct with
  | case1 pfx result =>
    intro _ _ _
    rw [processEntries, emitKeys_nil, List.append_nil]
  | case2 k f rest pfx result ihf ihrest =>
    intro hfresh hnodup hpfx
    have hjoin : joinKey pfx k = pfx ++ usep :: k := by rw [joinKey, if_neg hpfx]
    have hsplit := emitKeys_cons_obj pfx k f rest
    rw [hsplit, List.map_append, List.nodup_append] at hnodup
    obtain ⟨hn1, hn2, hdisj⟩ := hnodup
    rw [hjoin] at ihf ihrest
    have hinner : processEntries f (pfx ++ usep :: k) result =
        result ++ emitKeys (pfx ++ usep :: k) f := by
      refine ihf ?_ hn1 (by simp)
      intro q hq r hr
      exact hfresh q (hsplit ▸ List.mem_append_left _ hq) r hr
    rw [hinner] at ihrest
    have houter : processEntries rest pfx (result ++ emitKeys (pfx ++ usep :: k) f) =
        (result ++ emitKeys (pfx ++ usep :: k) f) ++ emitKeys pfx rest := by
      refine ihrest ?_ hn2 hpfx
      intro q hq r hr
      rcases List.mem_append.mp hr with hr | hr
      · exact hfresh q (hsplit ▸ List.mem_append_right _ hq) r hr
      · intro hcontra
        exact hdisj (hcontra ▸ List.mem_map_of_mem Prod.fst hr)
          (List.mem_map_of_mem Prod.fst hq)
    rw [processEntries, hjoin, hinner, houter, hsplit, List.append_assoc]
  | case3 k v rest pfx result hno ihrest =>
    intro hfresh hnodup hpfx
    have hjoin : joinKey pfx k = pfx ++ usep :: k := by rw [joinKey, if_neg hpfx]
    have hsplit := emitKeys_cons_leaf pfx k v rest hno
    rw [hsplit, List.map_cons, List.nodup_cons] at hnodup
    obtain ⟨hn1, hn2⟩ := hnodup
    rw [hjoin] at ihrest
    have hset : objSet result (pfx ++ usep :: k) v = result ++ [(pfx ++ usep :: k, v)] := by
      apply objSet_append
      intro p hp
      exact fun hcontra => hfresh _ (hsplit ▸ List.mem_cons_self _ _) p hp hcontra.symm
    rw [hset] at ihrest
    have houter : processEntries rest pfx (result ++ [(pfx ++ usep :: k, v)]) =
        (result ++ [(pfx ++ usep :: k, v)]) ++ emitKeys pfx rest := by
      refine ihrest ?_ hn2 hpfx
      intro q hq r hr
      rcases List.mem_append.mp hr with hr | hr
      · exact hfresh q (hsplit ▸ List.mem_cons_of_mem _ hq) r hr
      · rcases List.mem_singleton.mp hr with rfl
        intro hcontra
        exact hn1 (hcontra ▸ List.mem_map_of_mem Prod.fst hq)
    rw [processEntries_cons_leaf k v rest pfx result hno, hjoin, hset, houter, hsplit]
    simp [List.append_assoc]

theorem objGet_none {acc : List (Key × JValue)} {k : Key}
    (h : ∀ p ∈ acc, p.1 ≠ k) : objGet acc k = none := by
  unfold objGet
  rw [List.find?_eq_none.mpr]
  · rfl
  · intro p hp
    simpa using h p hp

theorem objGet_append_right {acc : List (Key × JValue)} {k : Key} {m : JValue}
    (h : ∀ p ∈ acc, p.1 ≠ k) : objGet (acc ++ [(k, m)]) k = some m := by
  unfold objGet
  induction acc with
  | nil => simp
  | cons p t ih =>
    have hp : (p.1 == k) = false := by simpa using h p (List.mem_cons_self _ _)
    rw [List.cons_append, List.find?_cons, hp]
    exact ih (fun q hq => h q (List.mem_cons_of_mem _ hq))

theorem objSet_append_last {acc : List (Key × JValue)} {k : Key} {m v : JValue}
    (h : ∀ p ∈ acc, p.1 ≠ k) :
    objSet (acc ++ [(k, m)]) k v = acc ++ [(k, v)] := by
  unfold objSet
  have hany : ((acc ++ [(k, m)]).any (fun p => p.1 == k)) = true := by
    rw [List.any_eq_true]
    exact ⟨(k, m), List.mem_append_right _ (List.mem_singleton_self _), by simp⟩
  rw [if_pos hany, List.map_append]
  congr 1
  · have hmap : ∀ p ∈ acc, (if p.1 == k then (k, v) else p) = p := by
      intro p hp
      rw [if_neg]
      simpa using h p hp
    rw [List.map_congr_left hmap]
    exact List.map_id' acc
  · simp

theorem foldInsert_cons (acc : List (Key × JValue)) (pv : List Key × JValue)
    (l : List (List Key × JValue)) :
    foldInsert acc (pv :: l) = foldInsert (insertPath acc pv.1 pv.2) l := rfl

theorem insertPath_single (fields : List (Key × JValue)) (k : Key) (v : JValue) :
    insertPath fields [k] v = objSet fields k v := by
  rw [insertPath]

theorem insertPath_cons {fields : List (Key × JValue)} {seg : Key} {rest : List Key}
    {v : JValue} (h : rest ≠ []) :
    insertPath fields (seg :: rest) v =
      (match objGet fields seg with
      | some c =>
        if truthy c then
          match c with
          | JValue.vobj f => objSet fields seg (JValue.vobj (insertPath f rest v))
          | _ => fields
        else objSet fields seg (JValue.vobj (insertPath [] rest v))
      | none => objSet fields seg (JValue.vobj (insertPath [] rest v))) := by
  cases rest with
  | nil => exact absurd rfl h
  | cons a t =>
    rw [insertPath]
    simp

theorem foldInsert_group (gs : List (List Key × JValue)) (k : Key) :
    ∀ (acc m : List (Key × JValue)),
    (∀ p ∈ acc, p.1 ≠ k) →
    (∀ pv ∈ gs, pv.1 ≠ []) →
    foldInsert (acc ++ [(k, JValue.vobj m)]) (gs.map (fun pv => (k :: pv.1, pv.2))) =
      acc ++ [(k, JValue.vobj (foldInsert m gs))] := by
  induction gs with
  | nil => intro acc m _ _; rfl
  | cons pv gs ih =>
    intro acc m hacc hne
    rw [List.map_cons, foldInsert_cons]
    have hpv : pv.1 ≠ [] := hne pv (List.mem_cons_self _ _)
    rw [insertPath_cons hpv, objGet_append_right hacc]
    simp only [truthy, if_true]
    rw [objSet_append_last hacc]
    rw [ih acc (insertPath m pv.1 pv.2) hacc (fun q hq => hne q (List.mem_cons_of_mem _ hq))]
    rfl

theorem foldInsert_rebuild : ∀ (fields : List (Key × JValue)),
    wfFieldsList fields = true →
    ∀ acc : List (Key × JValue), (∀ p ∈ acc, ∀ q ∈ fields, p.1 ≠ q.1) →
    foldInsert acc (flatOf fields) = acc ++ fields := by
  intro fields
  induction fields using flatOf.induct with
  | case1 =>
    intro _ acc _
    simp [flatOf, foldInsert]
  | case2 k rest f ihf ihrest =>
    intro hwf acc hdisj
    obtain ⟨hk, hany, hv, hrest⟩ := wfFieldsList_cons hwf
    obtain ⟨hfne, hf⟩ := wfValue_obj hv
    have hknotacc : ∀ p ∈ acc, p.1 ≠ k :=
      fun p hp => hdisj p hp (k, JValue.vobj f) (List.mem_cons_self _ _)
    rw [flatOf_cons_obj, foldInsert, List.foldl_append]
    have hgroup : List.foldl (fun a pv => insertPath a pv.1 pv.2) acc
        ((flatOf f).map (fun pv => (k :: pv.1, pv.2))) = acc ++ [(k, JValue.vobj f)] := by
      cases hgs : flatOf f with
      | nil => exact absurd hgs (flatOf_ne_nil hf hfne)
      | cons g0 gtail =>
        have hg0 : g0.1 ≠ [] := flatOf_paths_ne_nil g0 (hgs ▸ List.mem_cons_self _ _)
        have hstep : List.foldl (fun a (pv : List Key × JValue) => insertPath a pv.1 pv.2) acc
            (((k :: g0.1 : List Key), g0.2) :: gtail.map (fun pv => (k :: pv.1, pv.2))) =
            List.foldl (fun a (pv : List Key × JValue) => insertPath a pv.1 pv.2)
              (insertPath acc (k :: g0.1) g0.2) (gtail.map (fun pv => (k :: pv.1, pv.2))) := rfl
        rw [List.map_cons, hstep]
        rw [insertPath_cons hg0, objGet_none hknotacc,
          objSet_append (fun p hp hc => hknotacc p hp hc)]
        have hgrp := foldInsert_group gtail k acc (insertPath [] g0.1 g0.2) hknotacc
          (fun q hq => flatOf_paths_ne_nil q (hgs ▸ List.mem_cons_of_mem _ hq))
        rw [foldInsert] at hgrp
        rw [hgrp]
        have hinner : foldInsert [] (flatOf f) = f :=
          ihf hf [] (fun p hp => absurd hp (List.not_mem_nil p))
        rw [hgs, foldInsert_cons] at hinner
        rw [hinner]
    rw [hgroup]
    have := ihrest hrest (acc ++ [(k, JValue.vobj f)]) ?_
    · rw [foldInsert] at this
      rw [this, List.append_assoc]
      rfl
    · intro p hp q hq
      rcases List.mem_append.mp hp with hp | hp
      · exact hdisj p hp q (List.mem_cons_of_mem _ hq)
      · rcases List.mem_singleton.mp hp with rfl
        intro hcontra
        rw [List.any_eq_false] at hany
        exact absurd (beq_iff_eq.mpr hcontra.symm) (by simpa using hany q hq)
  | case3 k rest v hno ihrest =>
    intro hwf acc hdisj
    obtain ⟨hk, hany, hv, hrest⟩ := wfFieldsList_cons hwf
    have hknotacc : ∀ p ∈ acc, p.1 ≠ k :=
      fun p hp => hdisj p hp (k, v) (List.mem_cons_self _ _)
    rw [flatOf_cons_leaf k v rest hno, foldInsert_cons, insertPath_single,
      objSet_append hknotacc]
    have := ihrest hrest (acc ++ [(k, v)]) ?_
    · rw [this, List.append_assoc]
      rfl
    · intro p hp q hq
      rcases List.mem_append.mp hp with hp | hp
      · exact hdisj p hp q (List.mem_cons_of_mem _ hq)
      · rcases List.mem_singleton.mp hp with rfl
        intro hcontra
        rw [List.any_eq_false] at hany
        exact absurd (beq_iff_eq.mpr hcontra.symm) (by simpa using hany q hq)

theorem input_key_eq (t : Key) : "input".data ++ usep :: t = inputPfx ++ t := rfl

theorem output_key_eq (t : Key) : "output".data ++ usep :: t = outputPfx ++ t := rfl

theorem startsWith_input_key (t : Key) :
    startsWithK inputPfx ("input".data ++ usep :: t) = true := by
  rw [input_key_eq]
  exact startsWithK_self_append _ _

theorem startsWith_output_key (t : Key) :
    startsWithK outputPfx ("output".data ++ usep :: t) = true := by
  rw [output_key_eq]
  exact startsWithK_self_append _ _

theorem not_startsWith_input_of_output_key (t : Key) :
    startsWithK inputPfx ("output".data ++ usep :: t) = false := rfl

theorem drop_input_key (t : Key) :
    ("input".data ++ usep :: t).drop inputPfx.length = t := by
  rw [input_key_eq]
  exact List.drop_left _ _

theorem drop_output_key (t : Key) :
    ("output".data ++ usep :: t).drop outputPfx.length = t := by
  rw [output_key_eq]
  exact List.drop_left _ _

theorem output_key_ne_input_key (t u : Key) :
    ("output".data ++ usep :: t) ≠ ("input".data ++ usep :: u) := by
  intro h
  have h' : ('o' :: ("utput".data ++ usep :: t)) = ('i' :: ("nput".data ++ usep :: u)) := h
  injection h' with h1 _
  exact absurd h1 (by decide)

theorem emitKeys_nodup {fields : List (Key × JValue)}
    (hwf : wfFieldsList fields = true) (pfx : Key) :
    ((emitKeys pfx fields).map Prod.fst).Nodup := by
  unfold emitKeys
  rw [List.map_map]
  have hcomp : (Prod.fst ∘ fun pv : List Key × JValue => (pfx ++ usep :: intercalateK pv.1, pv.2)) =
      (fun p : List Key => pfx ++ usep :: intercalateK p) ∘ Prod.fst := rfl
  rw [hcomp, ← List.map_map]
  refine List.Nodup.map_on ?_ (flatOf_paths_nodup hwf)
  intro p hp q hq heq
  obtain ⟨pv, hpv, rfl⟩ := List.mem_map.mp hp
  obtain ⟨qv, hqv, rfl⟩ := List.mem_map.mp hq
  have h1 := List.append_cancel_left heq
  injection h1 with _ h2
  have hsp : splitOnU (intercalateK pv.1) = pv.1 :=
    splitOnU_intercalateK (flatOf_paths_ne_nil pv hpv) (flatOf_segs_ok hwf pv hpv)
  have hsq : splitOnU (intercalateK qv.1) = qv.1 :=
    splitOnU_intercalateK (flatOf_paths_ne_nil qv hqv) (flatOf_segs_ok hwf qv hqv)
  rw [← hsp, ← hsq, h2]

theorem langgraphLoop_append (l₁ l₂ : Flat) :
    ∀ inp outp, langgraphLoop (l₁ ++ l₂) inp outp =
      langgraphLoop l₂ (langgraphLoop l₁ inp outp).1 (langgraphLoop l₁ inp outp).2 := by
  induction l₁ with
  | nil => intro inp outp; rfl
  | cons hd tl ih =>
    obtain ⟨key, value⟩ := hd
    intro inp outp
    rw [List.cons_append, langgraphLoop, langgraphLoop]
    split_ifs <;> exact ih _ _

theorem langgraphLoop_emit_input (gs : List (List Key × JValue)) :
    ∀ (inp outp : List (Key × JValue)),
    (∀ pv ∈ gs, pv.1 ≠ []) →
    (∀ pv ∈ gs, ∀ seg ∈ pv.1, keyOkB seg = true) →
    langgraphLoop (gs.map (fun pv => ("input".data ++ usep :: intercalateK pv.1, pv.2))) inp outp =
      (foldInsert inp gs, outp) := by
  induction gs with
  | nil => intro inp outp _ _; rfl
  | cons pv gs ih =>
    intro inp outp hne hok
    rw [List.map_cons, langgraphLoop, startsWith_input_key, if_pos rfl, drop_input_key,
      splitOnU_intercalateK (hne pv (List.mem_cons_self _ _)) (hok pv (List.mem_cons_self _ _))]
    rw [ih (insertPath inp pv.1 pv.2) outp (fun q hq => hne q (List.mem_cons_of_mem _ hq))
      (fun q hq => hok q (List.mem_cons_of_mem _ hq))]
    rfl

theorem langgraphLoop_emit_output (gs : List (List Key × JValue)) :
    ∀ (inp outp : List (Key × JValue)),
    (∀ pv ∈ gs, pv.1 ≠ []) →
    (∀ pv ∈ gs, ∀ seg ∈ pv.1, keyOkB seg = true) →
    langgraphLoop (gs.map (fun pv => ("output".data ++ usep :: intercalateK pv.1, pv.2))) inp outp =
      (inp, foldInsert outp gs) := by
  induction gs with
  | nil => intro inp outp _ _; rfl
  | cons pv gs ih =>
    intro inp outp hne hok
    rw [List.map_cons, langgraphLoop]
    rw [not_startsWith_input_of_output_key, if_neg (by simp), startsWith_output_key,
      if_pos rfl, drop_output_key,
      splitOnU_intercalateK (hne pv (List.mem_cons_self _ _)) (hok pv (List.mem_cons_self _ _))]
    rw [ih inp (insertPath outp pv.1 pv.2) (fun q hq => hne q (List.mem_cons_of_mem _ hq))
      (fun q hq => hok q (List.mem_cons_of_mem _ hq))]
    rfl

/-- C1 (amended): for any state whose two sections are well-formed field
lists — leaf values are scalars, arrays (atomic), or nested mappings;
field names contain no underscore; no two sibling fields share a name;
and every nested mapping is non-empty — `langgraphToValues` applied to
`valuesToLanggraph` reproduces both sections exactly.  (Empty nested
mappings vanish during flattening, which the counterexample exhibits;
the claim as stated does not exclude them.) -/
theorem state_codec_roundtrip (inF outF : List (Key × JValue))
    (hwfIn : wfFieldsList inF = true) (hwfOut : wfFieldsList outF = true) :
    langgraphToValues (valuesToLanggraph (JValue.vobj inF) (JValue.vobj outF)) = (inF, outF) := by
  have hinN : ((emitKeys ("input".data) inF).map Prod.fst).Nodup := emitKeys_nodup hwfIn _
  have houtN : ((emitKeys ("output".data) outF).map Prod.fst).Nodup := emitKeys_nodup hwfOut _
  have hflat : valuesToLanggraph (JValue.vobj inF) (JValue.vobj outF) =
      emitKeys ("input".data) inF ++ emitKeys ("output".data) outF := by
    unfold valuesToLanggraph
    simp only [processObject]
    rw [processEntries_eq inF ("input".data) []
      (fun q _ r hr => absurd hr (List.not_mem_nil r)) hinN (by decide),
      List.nil_append]
    rw [processEntries_eq outF ("output".data) (emitKeys ("input".data) inF) ?_ houtN (by decide)]
    intro q hq r hr
    obtain ⟨pv, hpv, rfl⟩ := List.mem_map.mp hq
    obtain ⟨qv, hqv, rfl⟩ := List.mem_map.mp hr
    exact output_key_ne_input_key _ _
  rw [hflat]
  unfold langgraphToValues
  rw [langgraphLoop_append]
  simp only [emitKeys]
  rw [langgraphLoop_emit_input (flatOf inF) [] []
    (fun pv hpv => flatOf_paths_ne_nil pv hpv) (fun pv hpv => flatOf_segs_ok hwfIn pv hpv)]
  rw [langgraphLoop_emit_output (flatOf outF) (foldInsert [] (flatOf inF)) []
    (fun pv hpv => flatOf_paths_ne_nil pv hpv) (fun pv hpv => flatOf_segs_ok hwfOut pv hpv)]
  rw [foldInsert_rebuild inF hwfIn [] (fun p hp => absurd hp (List.not_mem_nil p)),
    foldInsert_rebuild outF hwfOut [] (fun p hp => absurd hp (List.not_mem_nil p))]
  simp

/-- C1 counterexample: the state whose input section holds one field
`"a"` mapped to the empty nested mapping `{}` — leaf values within the
claim's grammar, no collisions, no underscore in any field name — does
not survive the round trip: flattening emits nothing for `"a"`, so the
reconstructed input section is empty while the original is not. -/
theorem state_codec_roundtrip_counterexample :
    (langgraphToValues (valuesToLanggraph
      (JValue.vobj [("a".data, JValue.vobj [])]) (JValue.vobj []))).1 = [] ∧
    ([(("a".data : Key), JValue.vobj [])] : List (Key × JValue)) ≠ [] := by
  constructor
  · simp [langgraphToValues, valuesToLanggraph, processObject, processEntries, joinKey,
      langgraphLoop]
  · simp

/-- Witness for C1: a concrete nested state round-trips exactly. -/
theorem state_codec_roundtrip_witness :
    langgraphToValues (valuesToLanggraph
      (JValue.vobj [("a".data, JValue.vnum 1), ("b".data, JValue.vobj [("c".data, JValue.vnull)])])
      (JValue.vobj [("d".data, JValue.varr [JValue.vnum 2])])) =
      ([("a".data, JValue.vnum 1), ("b".data, JValue.vobj [("c".data, JValue.vnull)])],
       [("d".data, JValue.varr [JValue.vnum 2])]) := by
  apply state_codec_roundtrip
  · simp [wfFieldsList, wfValue, keyOkB, usep]
  · simp [wfFieldsList, wfValue, keyOkB, usep]

end Parsero
